import Mathlib

/-! Verification of the thumbnail-derivation pipeline of the
`multer-file-uploader-with-image-resize` repository.

The development is a shallow embedding of the `ImageProcessor` class of
`src/utils.ts` together with the path configuration of `src/config.ts`.
Pure JavaScript arithmetic on IEEE-754 doubles is modelled with exact
rationals (`ℚ`): every value the size formatter manipulates is an integer
repeatedly divided by `1024`, and dividing a double by `1024` is exact (it
only decrements the binary exponent), so for integer inputs below `2 ^ 53`
the rational model coincides bit-for-bit with the double computation.
Filesystem state is modelled as a map from paths to the byte length of the
file stored there (`none` = no file), and the external `sharp` resize
capability as an abstract function returning the byte length of the file it
writes, or `none` when it throws.  Code that can throw (`fs.statSync`) is
modelled with `Except`. -/

attribute [local semireducible] Rat.add Rat.mul Rat.inv Rat.sub

namespace Uploader

/-- Magnitude ladder of `ImageProcessor.humanReadableSize`
(`src/utils.ts` line 127):
`const units = ["B", "KB", "MB", "GB", "TB", "PB", "EB", "ZB", "YB"];`. -/
def units : List String := ["B", "KB", "MB", "GB", "TB", "PB", "EB", "ZB", "YB"]

/-- Model of JavaScript `Number.prototype.toFixed` on an exact rational
value, for the two precisions the source uses (`0` and `1`).  ECMA-262
`ToFixed` picks the integer `m` with `m / 10 ^ f` closest to the value,
preferring the larger `m` on a tie (hence `⌊x * 10 ^ f + 1 / 2⌋`), and
renders it with `f` fractional digits.  The source calls precision `1`
only on values in `[1, 10)`, where the quotient/remainder rendering below
is the JavaScript one. -/
def jsToFixed (x : ℚ) (f : ℕ) : String :=
  if f = 0 then toString ⌊x + 1 / 2⌋
  else toString (⌊x * 10 + 1 / 2⌋ / 10) ++ "." ++ toString (⌊x * 10 + 1 / 2⌋ % 10)

/-- The division loop of `humanReadableSize` (`src/utils.ts` lines 132-134):
`while (n >= 1024 && ++l) { n = n / 1024; }`.
The pre-increment `++l` starts from `l = 0` and so is always truthy; the
loop condition is just `n >= 1024`.  The JavaScript loop is unbounded, so it
is embedded with explicit fuel; `humanReadableSize` passes `units.length = 9`
fuel, which is exact for every input below `1024 ^ 9` — in particular for
every integer exactly representable in an IEEE-754 double (below `2 ^ 53`),
where at most five iterations can occur. -/
def sizeLoopGo : ℕ → ℚ → ℕ → ℚ × ℕ
  | 0, n, l => (n, l)
  | fuel + 1, n, l => if 1024 ≤ n then sizeLoopGo fuel (n / 1024) (l + 1) else (n, l)

/-- `ImageProcessor.humanReadableSize` (`src/utils.ts` lines 126-137).
`parseInt(bytes.toString(), 10) || 0` is the identity on every integer in
the faithfully representable range (`|bytes| < 2 ^ 53`, where `toString`
prints plain decimal digits) and is modelled as the identity; `units[l]`
past the end of the ladder is JavaScript `undefined`, which string
concatenation renders as `"undefined"`, modelled by `List.getD`. -/
def humanReadableSize (bytes : ℤ) : String :=
  let p := sizeLoopGo units.length (bytes : ℚ) 0
  jsToFixed p.1 (if p.1 < 10 ∧ 0 < p.2 then 1 else 0) ++ " " ++ units.getD p.2 "undefined"

/-- The size-formatting algorithm as §4.1 of the spec words it: the
magnitude index is the number of divisions by `1024` needed to bring the
value below `1024` (that is, `Nat.log 1024`), the final value is the input
divided by `1024` to that power, and the rendering uses zero decimal places
when no division occurred or the value is at least `10`, one decimal place
otherwise, followed by one space and the selected unit. -/
def humanReadableSizeSpec (n : ℕ) : String :=
  let l := Nat.log 1024 n
  let v : ℚ := (n : ℚ) / 1024 ^ l
  (if l = 0 ∨ 10 ≤ v then jsToFixed v 0 else jsToFixed v 1) ++ " " ++ units.getD l "undefined"

/-- A state already below `1024` leaves the division loop immediately, for
any amount of fuel. -/
lemma sizeLoopGo_of_lt (fuel : ℕ) (n : ℚ) (l : ℕ) (h : n < 1024) :
    sizeLoopGo fuel n l = (n, l) := by
  cases fuel with
  | zero => rfl
  | succ fuel => simp [sizeLoopGo, not_le.mpr h]

/-- Characterization of the division loop on an integer input: starting at
index `l ≤ Nat.log 1024 n` with value `n / 1024 ^ l` and enough fuel, the
loop stops exactly at index `Nat.log 1024 n` with value
`n / 1024 ^ Nat.log 1024 n`. -/
lemma sizeLoopGo_eq_log (fuel : ℕ) :
    ∀ (n l : ℕ), l ≤ Nat.log 1024 n → Nat.log 1024 n ≤ l + fuel →
      sizeLoopGo fuel ((n : ℚ) / 1024 ^ l) l =
        ((n : ℚ) / 1024 ^ Nat.log 1024 n, Nat.log 1024 n) := by
  induction fuel with
  | zero =>
    intro n l h1 h2
    have hl : l = Nat.log 1024 n := le_antisymm h1 (by simpa using h2)
    subst hl
    rfl
  | succ fuel ih =>
    intro n l h1 h2
    rcases eq_or_lt_of_le h1 with heq | hlt
    · have hn : (n : ℚ) < 1024 * 1024 ^ l := by
        have hnat : n < 1024 ^ (l + 1) := by
          rw [heq]
          exact Nat.lt_pow_succ_log_self (by norm_num) n
        calc (n : ℚ) < ((1024 ^ (l + 1) : ℕ) : ℚ) := by exact_mod_cast hnat
        _ = 1024 * 1024 ^ l := by push_cast [pow_succ]; ring
      have hcond : ¬ (1024 ≤ (n : ℚ) / 1024 ^ l) := by
        rw [not_le, div_lt_iff₀ (by positivity)]
        linarith
      rw [sizeLoopGo_of_lt _ _ _ (by
        rw [div_lt_iff₀ (by positivity : (0:ℚ) < 1024 ^ l)]; linarith), heq]
    · have hn0 : n ≠ 0 := by
        intro h0
        subst h0
        simp [Nat.log_zero_right] at hlt
      have hge : 1024 ^ (l + 1) ≤ n :=
        (Nat.pow_le_iff_le_log (by norm_num) hn0).mpr hlt
      have hcond : 1024 ≤ (n : ℚ) / 1024 ^ l := by
        rw [le_div_iff₀ (by positivity)]
        calc (1024 : ℚ) * 1024 ^ l = ((1024 ^ (l + 1) : ℕ) : ℚ) := by
              push_cast [pow_succ]; ring
        _ ≤ (n : ℚ) := by exact_mod_cast hge
      have hstep : ((n : ℚ) / 1024 ^ l) / 1024 = (n : ℚ) / 1024 ^ (l + 1) := by
        rw [div_div, pow_succ]
      rw [show sizeLoopGo (fuel + 1) ((n : ℚ) / 1024 ^ l) l =
            sizeLoopGo fuel (((n : ℚ) / 1024 ^ l) / 1024) (l + 1) by
          simp [sizeLoopGo, hcond], hstep]
      exact ih n (l + 1) hlt (by omega)

/-- The magnitude index computed on an input below `1024 ^ 9` fits the fuel
`humanReadableSize` supplies. -/
lemma log_lt_nine {n : ℕ} (h : n < 1024 ^ 9) : Nat.log 1024 n < 9 := by
  rcases Nat.eq_zero_or_pos n with h0 | h0
  · simp [h0]
  · exact Nat.log_lt_of_lt_pow h0.ne' h

/-- The division loop of `humanReadableSize`, started as the source starts
it, computes the magnitude index `Nat.log 1024 n` and the value
`n / 1024 ^ Nat.log 1024 n`. -/
lemma sizeLoopGo_start (n : ℕ) (h : n < 1024 ^ 9) :
    sizeLoopGo units.length (n : ℚ) 0 =
      ((n : ℚ) / 1024 ^ Nat.log 1024 n, Nat.log 1024 n) := by
  have key := sizeLoopGo_eq_log 9 n 0 (Nat.zero_le _)
    (by simpa using Nat.le_of_lt (log_lt_nine h))
  rw [show units.length = 9 from rfl]
  simpa using key

/-- Right cancellation for string concatenation, used to separate output
paths that share their trailing `/<originalFilename>` segment. -/
lemma string_append_cancel_right (a b c : String) (h : a ++ c = b ++ c) : a = b := by
  have hd := congrArg String.data h
  rw [String.data_append, String.data_append] at hd
  exact congrArg String.mk (List.append_cancel_right hd)

/-- C3: for every non-negative integer input (in the range the `9`-unit fuel
covers, which includes every integer an IEEE-754 double represents exactly),
`humanReadableSize` repeatedly divides by `1024` while the value is at least
`1024`, then renders with zero decimal places when no division occurred or
the final value is at least `10`, with one decimal place when at least one
division occurred and the final value is below `10`, followed by one space
and the unit selected by the number of divisions. -/
theorem humanReadableSize_matches_algorithm (n : ℕ) (h : n < 1024 ^ 9) :
    humanReadableSize n = humanReadableSizeSpec n := by
  have hcast : (((n : ℤ) : ℚ)) = (n : ℚ) := by push_cast; ring
  unfold humanReadableSize humanReadableSizeSpec
  rw [hcast, sizeLoopGo_start n h]
  dsimp only
  by_cases hc : (n : ℚ) / 1024 ^ Nat.log 1024 n < 10 ∧ 0 < Nat.log 1024 n
  · rw [if_pos hc, if_neg (by push_neg; exact ⟨by omega, hc.1⟩)]
  · rw [if_neg hc, if_pos ?_]
    rcases Nat.eq_zero_or_pos (Nat.log 1024 n) with h0 | h0
    · exact Or.inl h0
    · exact Or.inr (not_lt.mp fun hv => hc ⟨hv, h0⟩)

/-- Witness for C3 at the concrete input `1500`. -/
theorem humanReadableSize_matches_algorithm_witness :
    1500 < 1024 ^ 9 ∧ humanReadableSize 1500 = humanReadableSizeSpec 1500 :=
  ⟨by norm_num, humanReadableSize_matches_algorithm 1500 (by norm_num)⟩

/-- C4: the four documented sample outputs of `humanReadableSize`. -/
theorem humanReadableSize_concrete_examples :
    humanReadableSize 0 = "0 B" ∧ humanReadableSize 1500 = "1.5 KB" ∧
      humanReadableSize 10485760 = "10 MB" ∧ humanReadableSize 1023 = "1023 B" :=
  ⟨rfl, rfl, rfl, rfl⟩

/-- C5: on every input the supplied fuel covers (in particular every integer
a double represents exactly), the division loop stops at the first index
where the running value drops below `1024`; the resulting magnitude index is
within the bounds of the nine-unit ladder and the rendered string ends with
one space followed by one of the nine units. -/
theorem humanReadableSize_unit_ladder (n : ℕ) (h : n < 1024 ^ 9) :
    (sizeLoopGo units.length (n : ℚ) 0).1 < 1024 ∧
      (∀ j < (sizeLoopGo units.length (n : ℚ) 0).2, 1024 ≤ (n : ℚ) / 1024 ^ j) ∧
      (sizeLoopGo units.length (n : ℚ) 0).2 < units.length ∧
      ∃ s, ∃ u ∈ units, humanReadableSize n = s ++ " " ++ u := by
  have hcast : (((n : ℤ) : ℚ)) = (n : ℚ) := by push_cast; ring
  rw [sizeLoopGo_start n h]
  refine ⟨?_, ?_, ?_, ?_⟩
  · rw [div_lt_iff₀ (by positivity)]
    have hlt := Nat.lt_pow_succ_log_self (b := 1024) (by norm_num) n
    calc (n : ℚ) < ((1024 ^ (Nat.log 1024 n + 1) : ℕ) : ℚ) := by exact_mod_cast hlt
    _ = 1024 * 1024 ^ Nat.log 1024 n := by push_cast [pow_succ]; ring
  · intro j hj
    have hn0 : n ≠ 0 := by
      intro h0
      subst h0
      simp at hj
    have hpow : 1024 ^ (j + 1) ≤ n := (Nat.pow_le_iff_le_log (by norm_num) hn0).mpr hj
    rw [le_div_iff₀ (by positivity)]
    calc (1024 : ℚ) * 1024 ^ j = ((1024 ^ (j + 1) : ℕ) : ℚ) := by push_cast [pow_succ]; ring
    _ ≤ (n : ℚ) := by exact_mod_cast hpow
  · exact log_lt_nine h
  · refine ⟨jsToFixed ((n : ℚ) / 1024 ^ Nat.log 1024 n)
      (if (n : ℚ) / 1024 ^ Nat.log 1024 n < 10 ∧ 0 < Nat.log 1024 n then 1 else 0),
      units.getD (Nat.log 1024 n) "undefined", ?_, ?_⟩
    · rw [List.getD_eq_getElem units "undefined"
        (show Nat.log 1024 n < units.length from log_lt_nine h)]
      exact List.getElem_mem _
    · unfold humanReadableSize
      rw [hcast, sizeLoopGo_start n h]

/-- Witness for C5 at the concrete input `5000`. -/
theorem humanReadableSize_unit_ladder_witness :
    5000 < 1024 ^ 9 ∧
      ∃ s, ∃ u ∈ units, humanReadableSize 5000 = s ++ " " ++ u :=
  ⟨by norm_num, (humanReadableSize_unit_ladder 5000 (by norm_num)).2.2.2⟩

/-- C9: on a negative integer input the division loop never runs (the loop
condition `n >= 1024` is false at entry), and the result is the decimal
rendering of the input itself — not of `0` — followed by `" B"`. -/
theorem humanReadableSize_negative (z : ℤ) (h : z < 0) :
    sizeLoopGo units.length (z : ℚ) 0 = ((z : ℚ), 0) ∧
      humanReadableSize z = toString z ++ " B" ∧ humanReadableSize z ≠ "0 B" := by
  have hz : (z : ℚ) < 1024 := by
    calc (z : ℚ) < 0 := by exact_mod_cast h
    _ < 1024 := by norm_num
  have hloop := sizeLoopGo_of_lt units.length (z : ℚ) 0 hz
  have hval : humanReadableSize z = toString z ++ " B" := by
    unfold humanReadableSize
    rw [hloop]
    dsimp only
    rw [if_neg (by simp)]
    unfold jsToFixed
    rw [if_pos rfl]
    rw [show (⌊(z : ℚ) + 1 / 2⌋ : ℤ) = z by rw [Int.floor_int_add]; norm_num,
      String.append_assoc]
    rfl
  refine ⟨hloop, hval, ?_⟩
  intro hcontra
  rw [hval] at hcontra
  have h0 : toString z = "0" :=
    string_append_cancel_right _ _ " B" (by simpa using hcontra)
  cases z with
  | ofNat m => exact absurd h (not_lt.mpr (Int.ofNat_nonneg m))
  | negSucc k =>
    have hd := congrArg String.data h0
    rw [show toString (Int.negSucc k) = "-" ++ Nat.repr (k + 1) from rfl,
      String.data_append] at hd
    have hchar : ('-' : Char) = '0' := by
      have : ('-' :: (Nat.repr (k + 1)).data : List Char) = ['0'] := hd
      injection this
    exact absurd hchar (by decide)

/-- Witness for C9 at the concrete input `-5`. -/
theorem humanReadableSize_negative_witness :
    (-5 : ℤ) < 0 ∧ humanReadableSize (-5) = toString (-5 : ℤ) ++ " B" :=
  ⟨by norm_num, (humanReadableSize_negative (-5) (by norm_num)).2.1⟩

/-- Filesystem state: each path maps to the byte length of the file stored
there, `none` when no file exists at that path. -/
def FS : Type := String → Option ℕ

/-- `path.join` on already-normalized segments, as used by `src/config.ts`
and by `processImage` (`src/utils.ts` line 224). -/
def pathJoin (a b : String) : String := a ++ "/" ++ b

/-- The six thumbnail variant identifiers — the keys of the `mappings`
object literal in `ImageProcessor.processImage` (`src/utils.ts` lines
192-198, type `MappingKeys`). -/
inductive MappingKeys where
  | THUMB_50x50
  | THUMB_150x150
  | THUMB_250x250
  | THUMB_500x500
  | THUMB_1000x1000
  | THUMB_2000x2000
deriving DecidableEq, Repr

/-- The JavaScript property-name string of each variant identifier. -/
def keyName : MappingKeys → String
  | .THUMB_50x50 => "THUMB_50x50"
  | .THUMB_150x150 => "THUMB_150x150"
  | .THUMB_250x250 => "THUMB_250x250"
  | .THUMB_500x500 => "THUMB_500x500"
  | .THUMB_1000x1000 => "THUMB_1000x1000"
  | .THUMB_2000x2000 => "THUMB_2000x2000"

/-- Target dimensions of one thumbnail variant
(`{ width: number; height: number }`). -/
structure Dimensions where
  width : ℕ
  height : ℕ
deriving DecidableEq, Repr

/-- The `mappings` table of `processImage` (`src/utils.ts` lines 205-212). -/
def mappings : MappingKeys → Dimensions
  | .THUMB_50x50 => ⟨50, 50⟩
  | .THUMB_150x150 => ⟨150, 150⟩
  | .THUMB_250x250 => ⟨250, 250⟩
  | .THUMB_500x500 => ⟨500, 500⟩
  | .THUMB_1000x1000 => ⟨1000, 1000⟩
  | .THUMB_2000x2000 => ⟨2000, 2000⟩

/-- Iteration order of `for (const key in mappings)` (`src/utils.ts` line
223): JavaScript enumerates non-index string keys of an object literal in
insertion order. -/
def mappingOrder : List MappingKeys :=
  [.THUMB_50x50, .THUMB_150x150, .THUMB_250x250,
   .THUMB_500x500, .THUMB_1000x1000, .THUMB_2000x2000]

/-- The per-variant output directories of `config.filePaths`
(`src/config.ts`): `path.join(uploadDir, "temp", "thumbs", "<WxH>")` with
`uploadDir = path.join(BASE_DIR, "uploads")`; `BASE_DIR` (the resolved
`__dirname`) is a runtime value, kept as a parameter. -/
def configFilePaths (baseDir : String) : MappingKeys → String
  | .THUMB_50x50 =>
    pathJoin (pathJoin (pathJoin (pathJoin baseDir "uploads") "temp") "thumbs") "50x50"
  | .THUMB_150x150 =>
    pathJoin (pathJoin (pathJoin (pathJoin baseDir "uploads") "temp") "thumbs") "150x150"
  | .THUMB_250x250 =>
    pathJoin (pathJoin (pathJoin (pathJoin baseDir "uploads") "temp") "thumbs") "250x250"
  | .THUMB_500x500 =>
    pathJoin (pathJoin (pathJoin (pathJoin baseDir "uploads") "temp") "thumbs") "500x500"
  | .THUMB_1000x1000 =>
    pathJoin (pathJoin (pathJoin (pathJoin baseDir "uploads") "temp") "thumbs") "1000x1000"
  | .THUMB_2000x2000 =>
    pathJoin (pathJoin (pathJoin (pathJoin baseDir "uploads") "temp") "thumbs") "2000x2000"

/-- Abstract resize capability (the external `sharp(input).resize(w, h)
.toFile(output)` call, spec §6): given source path, destination path and
target dimensions it returns the byte length of the file it writes at the
destination, or `none` when it throws (unreadable input, unwritable output,
unsupported format). -/
def ResizeOp : Type := String → String → ℕ → ℕ → Option ℕ

/-- `ImageProcessor.resizeImage` (`src/utils.ts` lines 170-181): runs the
resize capability inside `try`/`catch`; on success the output file is
written at `outputPath` (overwriting any previous file there), on failure
the error is logged and swallowed and the filesystem is unchanged. -/
def resizeImage (op : ResizeOp) (fs : FS) (inputPath outputPath : String)
    (width height : ℕ) : FS :=
  match op inputPath outputPath width height with
  | some sz => fun p => if p = outputPath then some sz else fs p
  | none => fs

/-- `fs.statSync`: returns the stat (byte length) of the file at `p`, and
throws when no file exists there. -/
def statSync (fs : FS) (p : String) : Except Unit ℕ :=
  match fs p with
  | some sz => Except.ok sz
  | none => Except.error ()

/-- One entry of the `result` record built by `processImage`
(`src/utils.ts` lines 241-245): `{ path, size, originalSize }`. -/
structure ThumbEntry where
  path : String
  size : String
  originalSize : String
deriving DecidableEq, Repr

/-- The value returned by `processImage` (`src/utils.ts` lines 251-254):
`{ original, thumbnails }`; the thumbnails object is modelled as an
association list in key-insertion order. -/
structure Manifest where
  original : String
  thumbnails : List (MappingKeys × ThumbEntry)
deriving DecidableEq, Repr

/-- One iteration of the `for (const key in mappings)` loop of
`processImage` (`src/utils.ts` lines 223-247): compute the output path,
run `resizeImage` (whose failure is swallowed), then `statSync` the
original and the output path — either stat throws past the loop — and
build the `{ path, size, originalSize }` entry. -/
def processVariant (op : ResizeOp) (filePaths : MappingKeys → String)
    (imagePath originalFilename : String) (fs : FS) (key : MappingKeys) :
    Except Unit (ThumbEntry × FS) :=
  let outputPath := pathJoin (filePaths key) originalFilename
  let fs' := resizeImage op fs imagePath outputPath
    (mappings key).width (mappings key).height
  match statSync fs' imagePath, statSync fs' outputPath with
  | Except.ok originalSz, Except.ok sz =>
    Except.ok (⟨outputPath, humanReadableSize sz, humanReadableSize originalSz⟩, fs')
  | Except.error e, _ => Except.error e
  | _, Except.error e => Except.error e

/-- The variant loop of `processImage`, iterated over a key list, threading
the filesystem state and accumulating the `result` entries in insertion
order; the first uncaught exception aborts the loop. -/
def processImageGo (op : ResizeOp) (filePaths : MappingKeys → String)
    (imagePath originalFilename : String) :
    List MappingKeys → FS → Except Unit (List (MappingKeys × ThumbEntry) × FS)
  | [], fs => Except.ok ([], fs)
  | k :: ks, fs =>
    match processVariant op filePaths imagePath originalFilename fs k with
    | Except.error e => Except.error e
    | Except.ok (entry, fs') =>
      match processImageGo op filePaths imagePath originalFilename ks fs' with
      | Except.error e => Except.error e
      | Except.ok (rest, fs'') => Except.ok ((k, entry) :: rest, fs'')

/-- `ImageProcessor.processImage` (`src/utils.ts` lines 191-255): iterate
the six variants in table order over the initial filesystem state and wrap
the accumulated entries as `{ original: imagePath, thumbnails: result }`.
The final filesystem state is returned alongside the manifest. -/
def processImage (op : ResizeOp) (filePaths : MappingKeys → String) (fs : FS)
    (imagePath originalFilename : String) : Except Unit (Manifest × FS) :=
  match processImageGo op filePaths imagePath originalFilename mappingOrder fs with
  | Except.error e => Except.error e
  | Except.ok (entries, fs') => Except.ok (⟨imagePath, entries⟩, fs')

/-- A successful resize writes its reported byte length at the output path. -/
lemma resizeImage_out (op : ResizeOp) (fs : FS) (i o : String) (w h sz : ℕ)
    (hop : op i o w h = some sz) : resizeImage op fs i o w h o = some sz := by
  unfold resizeImage
  rw [hop]
  simp

/-- `resizeImage` leaves every path other than the output path unchanged. -/
lemma resizeImage_ne (op : ResizeOp) (fs : FS) (i o : String) (w h : ℕ)
    (p : String) (hp : p ≠ o) : resizeImage op fs i o w h p = fs p := by
  unfold resizeImage
  cases op i o w h with
  | none => rfl
  | some sz => simp [hp]

/-- `resizeImage` never deletes a file: any path with a file before still
has one after. -/
lemma resizeImage_mono (op : ResizeOp) (fs : FS) (i o : String) (w h : ℕ)
    (p : String) (hp : fs p ≠ none) : resizeImage op fs i o w h p ≠ none := by
  unfold resizeImage
  cases op i o w h with
  | none => exact hp
  | some sz =>
    by_cases hpo : p = o
    · simp [hpo]
    · simpa [hpo] using hp

/-- `statSync` succeeds with value `a` exactly when a file of byte length
`a` is present. -/
lemma statSync_ok_iff (fs : FS) (p : String) (a : ℕ) :
    statSync fs p = Except.ok a ↔ fs p = some a := by
  unfold statSync
  cases fs p <;> simp

/-- A loop iteration on a state where both the original and the (post-
resize) output file exist produces exactly the source's
`{ path, size, originalSize }` entry and the post-resize state. -/
lemma processVariant_eq_ok (op : ResizeOp) (filePaths : MappingKeys → String)
    (imagePath originalFilename : String) (fs : FS) (k : MappingKeys) (a b : ℕ)
    (ha : resizeImage op fs imagePath (pathJoin (filePaths k) originalFilename)
      (mappings k).width (mappings k).height imagePath = some a)
    (hb : resizeImage op fs imagePath (pathJoin (filePaths k) originalFilename)
      (mappings k).width (mappings k).height
      (pathJoin (filePaths k) originalFilename) = some b) :
    processVariant op filePaths imagePath originalFilename fs k =
      Except.ok
        (⟨pathJoin (filePaths k) originalFilename,
          humanReadableSize b, humanReadableSize a⟩,
         resizeImage op fs imagePath (pathJoin (filePaths k) originalFilename)
           (mappings k).width (mappings k).height) := by
  unfold processVariant
  dsimp only
  unfold statSync
  rw [ha, hb]

/-- Inversion of a successful loop iteration: the resulting state is the
post-resize state, both stats found files, and the entry records the output
path together with the rendered byte lengths of the files found on disk. -/
lemma processVariant_ok_inv {op : ResizeOp} {filePaths : MappingKeys → String}
    {imagePath originalFilename : String} {fs : FS} {k : MappingKeys}
    {e : ThumbEntry} {fsPost : FS}
    (hok : processVariant op filePaths imagePath originalFilename fs k =
      Except.ok (e, fsPost)) :
    fsPost = resizeImage op fs imagePath (pathJoin (filePaths k) originalFilename)
        (mappings k).width (mappings k).height ∧
      ∃ a b, fsPost imagePath = some a ∧
        fsPost (pathJoin (filePaths k) originalFilename) = some b ∧
        e = ⟨pathJoin (filePaths k) originalFilename,
          humanReadableSize b, humanReadableSize a⟩ := by
  unfold processVariant at hok
  dsimp only at hok
  split at hok
  next a b hsi hso =>
    injection hok with hok'
    injection hok' with he hfs
    exact ⟨hfs.symm, a, b,
      hfs ▸ (statSync_ok_iff _ _ _).mp hsi,
      hfs ▸ (statSync_ok_iff _ _ _).mp hso, he.symm⟩
  next _ _ _ => cases hok
  next _ _ _ _ => cases hok

/-- Existence of a successful run of the variant loop: when the original
file exists and every variant either resizes successfully or already has a
file at its output path, the loop completes with one entry per key, in key
order, and never deletes a file. -/
lemma processImageGo_ok_exists (op : ResizeOp) (filePaths : MappingKeys → String)
    (imagePath originalFilename : String) :
    ∀ (ks : List MappingKeys) (fs : FS),
      fs imagePath ≠ none →
      (∀ k ∈ ks, op imagePath (pathJoin (filePaths k) originalFilename)
          (mappings k).width (mappings k).height ≠ none ∨
          fs (pathJoin (filePaths k) originalFilename) ≠ none) →
      ∃ entries fs',
        processImageGo op filePaths imagePath originalFilename ks fs =
          Except.ok (entries, fs') ∧
        entries.map Prod.fst = ks ∧
        (∀ p, fs p ≠ none → fs' p ≠ none) := by
  intro ks
  induction ks with
  | nil => exact fun fs himg _ => ⟨[], fs, rfl, rfl, fun _ hp => hp⟩
  | cons k ks ih =>
    intro fs himg hks
    have hout : resizeImage op fs imagePath (pathJoin (filePaths k) originalFilename)
        (mappings k).width (mappings k).height
        (pathJoin (filePaths k) originalFilename) ≠ none := by
      rcases hks k (List.mem_cons_self k ks) with hop | hpre
      · obtain ⟨sz, hsz⟩ := Option.ne_none_iff_exists'.mp hop
        rw [resizeImage_out op fs _ _ _ _ sz hsz]
        simp
      · exact resizeImage_mono op fs _ _ _ _ _ hpre
    have himg1 : resizeImage op fs imagePath (pathJoin (filePaths k) originalFilename)
        (mappings k).width (mappings k).height imagePath ≠ none :=
      resizeImage_mono op fs _ _ _ _ _ himg
    obtain ⟨a, ha⟩ := Option.ne_none_iff_exists'.mp himg1
    obtain ⟨b, hb⟩ := Option.ne_none_iff_exists'.mp hout
    obtain ⟨rest, fs2, hgo, hmap, hmono⟩ :=
      ih (resizeImage op fs imagePath (pathJoin (filePaths k) originalFilename)
          (mappings k).width (mappings k).height)
        himg1
        (fun k' hk' => by
          rcases hks k' (List.mem_cons_of_mem _ hk') with hop | hpre
          · exact Or.inl hop
          · exact Or.inr (resizeImage_mono op fs _ _ _ _ _ hpre))
    refine ⟨(k, ⟨pathJoin (filePaths k) originalFilename,
        humanReadableSize b, humanReadableSize a⟩) :: rest, fs2, ?_, ?_, ?_⟩
    · simp only [processImageGo,
        processVariant_eq_ok op filePaths imagePath originalFilename fs k a b ha hb,
        hgo]
    · simp [hmap]
    · exact fun p hp => hmono p (resizeImage_mono op fs _ _ _ _ _ hp)

/-- Properties of any successful run of the variant loop: one entry per key
in key order, entry paths are the joined output paths, paths outside the
output-path set are untouched, and every entry arises from a successful
iteration on some intermediate state. -/
lemma processImageGo_ok_props (op : ResizeOp) (filePaths : MappingKeys → String)
    (imagePath originalFilename : String) :
    ∀ (ks : List MappingKeys) (fs : FS)
      (entries : List (MappingKeys × ThumbEntry)) (fs' : FS),
      processImageGo op filePaths imagePath originalFilename ks fs =
        Except.ok (entries, fs') →
      entries.map Prod.fst = ks ∧
      entries.map (fun e => e.2.path) =
        ks.map (fun k => pathJoin (filePaths k) originalFilename) ∧
      (∀ p, (∀ k ∈ ks, p ≠ pathJoin (filePaths k) originalFilename) →
        fs' p = fs p) ∧
      (∀ k e, (k, e) ∈ entries → ∃ fsPre fsPost,
        processVariant op filePaths imagePath originalFilename fsPre k =
          Except.ok (e, fsPost)) := by
  intro ks
  induction ks with
  | nil =>
    intro fs entries fs' hok
    rw [processImageGo] at hok
    injection hok with hok'
    injection hok' with h1 h2
    subst h1
    subst h2
    exact ⟨rfl, rfl, fun _ _ => rfl, fun k e hke => absurd hke (List.not_mem_nil _)⟩
  | cons k ks ih =>
    intro fs entries fs' hok
    rw [processImageGo] at hok
    split at hok
    next e' hv => cases hok
    next entry fs1 hv =>
      split at hok
      next e' hg => cases hok
      next rest fs2 hg =>
        injection hok with hok'
        injection hok' with h1 h2
        subst h1
        subst h2
        obtain ⟨hmap, hpaths, hframe, hper⟩ := ih fs1 rest fs2 hg
        obtain ⟨hfs1, a, b, -, -, he⟩ := processVariant_ok_inv hv
        refine ⟨?_, ?_, ?_, ?_⟩
        · simp [hmap]
        · simp [hpaths, he]
        · intro p hp
          have h2 : fs2 p = fs1 p :=
            hframe p fun k' hk' => hp k' (List.mem_cons_of_mem _ hk')
          have h3 : fs1 p = fs p := by
            rw [hfs1]
            exact resizeImage_ne op fs _ _ _ _ p (hp k (List.mem_cons_self k ks))
          rw [h2, h3]
        · intro k' e' hke
          rcases List.mem_cons.mp hke with hhead | htail
          · injection hhead with hk he'
            subst hk
            subst he'
            exact ⟨fs, fs1, hv⟩
          · exact hper k' e' htail

/-- A successful `processImage` run exists whenever the original file is on
disk and every variant either resizes successfully or already has a file at
its output path. -/
lemma processImage_ok_exists (op : ResizeOp) (filePaths : MappingKeys → String)
    (fs : FS) (imagePath originalFilename : String)
    (himg : fs imagePath ≠ none)
    (hks : ∀ k ∈ mappingOrder, op imagePath (pathJoin (filePaths k) originalFilename)
        (mappings k).width (mappings k).height ≠ none ∨
        fs (pathJoin (filePaths k) originalFilename) ≠ none) :
    ∃ m fsF, processImage op filePaths fs imagePath originalFilename =
      Except.ok (m, fsF) := by
  obtain ⟨entries, fs', hgo, -, -⟩ :=
    processImageGo_ok_exists op filePaths imagePath originalFilename mappingOrder fs himg hks
  exact ⟨⟨imagePath, entries⟩, fs', by unfold processImage; rw [hgo]⟩

/-- Inversion of a successful `processImage` run down to the variant loop. -/
lemma processImage_ok_inv {op : ResizeOp} {filePaths : MappingKeys → String}
    {fs : FS} {imagePath originalFilename : String} {m : Manifest} {fsF : FS}
    (hok : processImage op filePaths fs imagePath originalFilename =
      Except.ok (m, fsF)) :
    m.original = imagePath ∧
      processImageGo op filePaths imagePath originalFilename mappingOrder fs =
        Except.ok (m.thumbnails, fsF) := by
  unfold processImage at hok
  split at hok
  next e' hg => cases hok
  next entries fs' hg =>
    injection hok with hok'
    injection hok' with h1 h2
    subst h2
    subst h1
    exact ⟨rfl, hg⟩

/-- C1: a `processImage` call on a valid input (the original file is on
disk and every variant's resize succeeds) returns a manifest whose
thumbnail record has exactly six entries, keyed — in table order — by the
six variant identifiers `THUMB_50x50` … `THUMB_2000x2000`, and no others. -/
theorem processImage_six_thumbnails (op : ResizeOp) (filePaths : MappingKeys → String)
    (fs : FS) (imagePath originalFilename : String)
    (himg : fs imagePath ≠ none)
    (hop : ∀ k ∈ mappingOrder, op imagePath (pathJoin (filePaths k) originalFilename)
      (mappings k).width (mappings k).height ≠ none) :
    ∃ m fsF, processImage op filePaths fs imagePath originalFilename =
        Except.ok (m, fsF) ∧
      m.thumbnails.map Prod.fst = mappingOrder ∧
      m.thumbnails.map (fun e => keyName e.1) =
        ["THUMB_50x50", "THUMB_150x150", "THUMB_250x250",
         "THUMB_500x500", "THUMB_1000x1000", "THUMB_2000x2000"] := by
  obtain ⟨entries, fs', hgo, hmap, -⟩ :=
    processImageGo_ok_exists op filePaths imagePath originalFilename mappingOrder fs
      himg (fun k hk => Or.inl (hop k hk))
  refine ⟨⟨imagePath, entries⟩, fs', by unfold processImage; rw [hgo], hmap, ?_⟩
  rw [show (fun e : MappingKeys × ThumbEntry => keyName e.1) = keyName ∘ Prod.fst
      from rfl,
    ← List.map_map, hmap]
  rfl

/-- Witness for C1: a concrete run with an always-succeeding resize
capability and the original present on disk. -/
theorem processImage_six_thumbnails_witness :
    ∃ m fsF,
      processImage (fun _ _ _ _ => some 77) (configFilePaths "/srv")
          (fun p => if p = "/srv/uploads/temp/img.png" then some 2048 else none)
          "/srv/uploads/temp/img.png" "img.png" = Except.ok (m, fsF) ∧
        m.thumbnails.map Prod.fst = mappingOrder ∧
        m.thumbnails.map (fun e => keyName e.1) =
          ["THUMB_50x50", "THUMB_150x150", "THUMB_250x250",
           "THUMB_500x500", "THUMB_1000x1000", "THUMB_2000x2000"] :=
  processImage_six_thumbnails _ _ _ _ _ (by decide) (by decide)

/-- Counterexample to C2 as stated: a run in which exactly one variant's
resize step fails (the capability succeeds at every dimension except
`50 × 50`) and no file pre-exists at that variant's output path.  The
swallowed resize failure leaves no file at the output path, the subsequent
`fs.statSync(outputPath)` throws, and `processImage` rejects — so the whole
call fails and the remaining five variants are never attempted. -/
theorem processImage_single_resize_failure_throws :
    processImage (fun _ _ w _ => if w = 50 then none else some 100)
        (configFilePaths "/srv")
        (fun p => if p = "/srv/uploads/temp/img.png" then some 2048 else none)
        "/srv/uploads/temp/img.png" "img.png" = Except.error () := rfl

/-- C2 as amended: a variant's resize failure is caught inside
`resizeImage` and never propagates by itself; the call still completes,
with every variant receiving a manifest entry, provided a file is already
present at each resize-failing variant's output path (for instance one left
by a previous invocation) — otherwise the stat of the missing output throws
and aborts the remaining variants. -/
theorem processImage_resize_failure_isolated (op : ResizeOp)
    (filePaths : MappingKeys → String) (fs : FS)
    (imagePath originalFilename : String)
    (himg : fs imagePath ≠ none)
    (hks : ∀ k ∈ mappingOrder, op imagePath (pathJoin (filePaths k) originalFilename)
      (mappings k).width (mappings k).height ≠ none ∨
      fs (pathJoin (filePaths k) originalFilename) ≠ none) :
    ∃ m fsF, processImage op filePaths fs imagePath originalFilename =
        Except.ok (m, fsF) ∧
      m.thumbnails.map Prod.fst = mappingOrder := by
  obtain ⟨entries, fs', hgo, hmap, -⟩ :=
    processImageGo_ok_exists op filePaths imagePath originalFilename mappingOrder fs
      himg hks
  exact ⟨⟨imagePath, entries⟩, fs', by unfold processImage; rw [hgo], hmap⟩

/-- Witness for the amended C2: every variant's resize fails, yet because a
file exists at every output path the call completes with all six entries. -/
theorem processImage_resize_failure_isolated_witness :
    ∃ m fsF,
      processImage (fun _ _ _ _ => none) (configFilePaths "/srv")
          (fun _ => some 10) "/srv/uploads/temp/img.png" "img.png" =
        Except.ok (m, fsF) ∧
      m.thumbnails.map Prod.fst = mappingOrder :=
  processImage_resize_failure_isolated _ _ _ _ _ (by decide) (by decide)

/-- C6: in any successful `processImage` run, every variant's recorded
`size` string is `humanReadableSize` of the byte length of the file
actually on disk at the variant's output path after that variant's resize
step (the state `fsPost` produced by `processVariant`), and whenever the
resize itself succeeded that byte length is exactly the one the resize
wrote — never a value predicted before writing. -/
theorem processImage_size_from_disk (op : ResizeOp) (filePaths : MappingKeys → String)
    (fs : FS) (imagePath originalFilename : String) (m : Manifest) (fsF : FS)
    (hok : processImage op filePaths fs imagePath originalFilename =
      Except.ok (m, fsF)) :
    ∀ k e, (k, e) ∈ m.thumbnails →
      ∃ fsPre fsPost sz,
        processVariant op filePaths imagePath originalFilename fsPre k =
          Except.ok (e, fsPost) ∧
        fsPost (pathJoin (filePaths k) originalFilename) = some sz ∧
        e.size = humanReadableSize sz ∧
        e.path = pathJoin (filePaths k) originalFilename ∧
        ∀ w, op imagePath (pathJoin (filePaths k) originalFilename)
          (mappings k).width (mappings k).height = some w → sz = w := by
  obtain ⟨-, hgo⟩ := processImage_ok_inv hok
  obtain ⟨-, -, -, hper⟩ :=
    processImageGo_ok_props op filePaths imagePath originalFilename mappingOrder fs
      m.thumbnails fsF hgo
  intro k e hke
  obtain ⟨fsPre, fsPost, hv⟩ := hper k e hke
  obtain ⟨hfsPost, a, b, -, hb, he⟩ := processVariant_ok_inv hv
  refine ⟨fsPre, fsPost, b, hv, hb, by rw [he], by rw [he], ?_⟩
  intro w hw
  have hout : fsPost (pathJoin (filePaths k) originalFilename) = some w := by
    rw [hfsPost]
    exact resizeImage_out op fsPre _ _ _ _ w hw
  exact Option.some.inj (hb.symm.trans hout)

/-- Witness for C6: a concrete successful run fed to the theorem. -/
theorem processImage_size_from_disk_witness :
    ∃ m fsF,
      processImage (fun _ _ _ _ => some 77) (configFilePaths "/srv")
          (fun p => if p = "/srv/uploads/temp/img.png" then some 2048 else none)
          "/srv/uploads/temp/img.png" "img.png" = Except.ok (m, fsF) ∧
      ∀ k e, (k, e) ∈ m.thumbnails →
        ∃ fsPre fsPost sz,
          processVariant (fun _ _ _ _ => some 77) (configFilePaths "/srv")
            "/srv/uploads/temp/img.png" "img.png" fsPre k =
            Except.ok (e, fsPost) ∧
          fsPost (pathJoin (configFilePaths "/srv" k) "img.png") = some sz ∧
          e.size = humanReadableSize sz ∧
          e.path = pathJoin (configFilePaths "/srv" k) "img.png" ∧
          ∀ w, (fun _ _ _ _ => some 77 : ResizeOp) "/srv/uploads/temp/img.png"
            (pathJoin (configFilePaths "/srv" k) "img.png")
            (mappings k).width (mappings k).height = some w → sz = w := by
  obtain ⟨m, fsF, hok⟩ :=
    processImage_ok_exists (fun _ _ _ _ => some 77) (configFilePaths "/srv")
      (fun p => if p = "/srv/uploads/temp/img.png" then some 2048 else none)
      "/srv/uploads/temp/img.png" "img.png" (by decide) (by decide)
  exact ⟨m, fsF, hok,
    processImage_size_from_disk _ _ _ _ _ _ _ hok⟩

/-- C7: in any successful `processImage` run the recorded output paths are
exactly, in table order, each variant's configured base directory joined
with `originalFilename` — a value determined by the configuration and the
filename alone, so two invocations with the same filename target the same
six paths — and every path outside those six is left untouched by the call
(outputs are overwritten in place, never accumulated elsewhere). -/
theorem processImage_output_paths (op : ResizeOp) (filePaths : MappingKeys → String)
    (fs : FS) (imagePath originalFilename : String) (m : Manifest) (fsF : FS)
    (hok : processImage op filePaths fs imagePath originalFilename =
      Except.ok (m, fsF)) :
    m.thumbnails.map (fun e => e.2.path) =
      mappingOrder.map (fun k => pathJoin (filePaths k) originalFilename) ∧
    ∀ p, (∀ k ∈ mappingOrder, p ≠ pathJoin (filePaths k) originalFilename) →
      fsF p = fs p := by
  obtain ⟨-, hgo⟩ := processImage_ok_inv hok
  obtain ⟨-, hpaths, hframe, -⟩ :=
    processImageGo_ok_props op filePaths imagePath originalFilename mappingOrder fs
      m.thumbnails fsF hgo
  exact ⟨hpaths, hframe⟩

/-- Witness for C7: a concrete successful run fed to the theorem. -/
theorem processImage_output_paths_witness :
    ∃ m fsF,
      processImage (fun _ _ _ _ => some 77) (configFilePaths "/srv")
          (fun p => if p = "/srv/uploads/temp/img.png" then some 2048 else none)
          "/srv/uploads/temp/img.png" "img.png" = Except.ok (m, fsF) ∧
      m.thumbnails.map (fun e => e.2.path) =
        mappingOrder.map (fun k => pathJoin (configFilePaths "/srv" k) "img.png") := by
  obtain ⟨m, fsF, hok⟩ :=
    processImage_ok_exists (fun _ _ _ _ => some 77) (configFilePaths "/srv")
      (fun p => if p = "/srv/uploads/temp/img.png" then some 2048 else none)
      "/srv/uploads/temp/img.png" "img.png" (by decide) (by decide)
  exact ⟨m, fsF, hok, (processImage_output_paths _ _ _ _ _ _ _ hok).1⟩

/-- C8: the thumbnail spec table is a fixed ordered set of exactly six
(identifier, width, height) triples, each square, strictly increasing
through 50, 150, 250, 500, 1000, 2000; and each loop iteration passes
exactly its triple's width and height to the resize step — two resize
capabilities that agree at those dimensions (and that variant's paths)
produce identical iteration results. -/
theorem mappings_fixed_table :
    mappingOrder.length = 6 ∧
    (∀ k, (mappings k).width = (mappings k).height) ∧
    mappingOrder.map (fun k => (mappings k).width) = [50, 150, 250, 500, 1000, 2000] ∧
    List.Chain' (· < ·) (mappingOrder.map (fun k => (mappings k).width)) ∧
    ∀ (filePaths : MappingKeys → String) (op₁ op₂ : ResizeOp) (fs : FS)
      (imagePath originalFilename : String) (k : MappingKeys),
      op₁ imagePath (pathJoin (filePaths k) originalFilename)
          (mappings k).width (mappings k).height =
        op₂ imagePath (pathJoin (filePaths k) originalFilename)
          (mappings k).width (mappings k).height →
      processVariant op₁ filePaths imagePath originalFilename fs k =
        processVariant op₂ filePaths imagePath originalFilename fs k := by
  refine ⟨rfl, fun k => by cases k <;> rfl, rfl, ?_, ?_⟩
  · show List.Chain' (· < ·) [50, 150, 250, 500, 1000, 2000]
    norm_num [List.chain'_cons]
  · intro filePaths op₁ op₂ fs imagePath originalFilename k hagree
    simp only [processVariant, resizeImage]
    rw [hagree]

/-- Witness for C8's observational clause: two capabilities that differ
globally but agree at the `50 × 50` call produce the same iteration. -/
theorem mappings_fixed_table_witness :
    processVariant (fun _ _ _ _ => some 5) (configFilePaths "/srv")
        "/img" "pic.png" (fun _ => some 9) MappingKeys.THUMB_50x50 =
      processVariant (fun _ _ w _ => if w = 50 then some 5 else none)
        (configFilePaths "/srv") "/img" "pic.png" (fun _ => some 9)
        MappingKeys.THUMB_50x50 :=
  mappings_fixed_table.2.2.2.2 (configFilePaths "/srv")
    (fun _ _ _ _ => some 5) (fun _ _ w _ => if w = 50 then some 5 else none)
    (fun _ => some 9) "/img" "pic.png" MappingKeys.THUMB_50x50 (by decide)

/-- C10: within one successful `processImage` call, whenever the six
configured variant directories are pairwise distinct, the six recorded
output paths are pairwise distinct — no variant's derivative overwrites
another variant's derivative in the same call. -/
theorem processImage_paths_pairwise_distinct (op : ResizeOp)
    (filePaths : MappingKeys → String) (fs : FS)
    (imagePath originalFilename : String) (m : Manifest) (fsF : FS)
    (hdirs : (mappingOrder.map filePaths).Pairwise (· ≠ ·))
    (hok : processImage op filePaths fs imagePath originalFilename =
      Except.ok (m, fsF)) :
    (m.thumbnails.map (fun e => e.2.path)).Pairwise (· ≠ ·) := by
  obtain ⟨-, hgo⟩ := processImage_ok_inv hok
  obtain ⟨-, hpaths, -, -⟩ :=
    processImageGo_ok_props op filePaths imagePath originalFilename mappingOrder fs
      m.thumbnails fsF hgo
  rw [hpaths, List.pairwise_map]
  rw [List.pairwise_map] at hdirs
  refine hdirs.imp ?_
  intro a b hab hcontra
  apply hab
  exact string_append_cancel_right _ _ _
    (string_append_cancel_right _ _ _ hcontra)

/-- Witness for C10: the actual configured directories are pairwise
distinct, and a concrete successful run has pairwise distinct paths. -/
theorem processImage_paths_pairwise_distinct_witness :
    ∃ m fsF,
      processImage (fun _ _ _ _ => some 77) (configFilePaths "/srv")
          (fun p => if p = "/srv/uploads/temp/img.png" then some 2048 else none)
          "/srv/uploads/temp/img.png" "img.png" = Except.ok (m, fsF) ∧
      (m.thumbnails.map (fun e => e.2.path)).Pairwise (· ≠ ·) := by
  obtain ⟨m, fsF, hok⟩ :=
    processImage_ok_exists (fun _ _ _ _ => some 77) (configFilePaths "/srv")
      (fun p => if p = "/srv/uploads/temp/img.png" then some 2048 else none)
      "/srv/uploads/temp/img.png" "img.png" (by decide) (by decide)
  exact ⟨m, fsF, hok,
    processImage_paths_pairwise_distinct _ _ _ _ _ _ _ (by decide) hok⟩

end Uploader
